import Mathlib

set_option maxHeartbeats 1000000

/-!
Shallow embedding of the extraction pipeline of `rust-finance-miner`
(`src/main.rs`).

The program downloads a catalog document and per-instrument profile pages,
extracts JS-embedded literals (parsed by `yaml_rust`), and assembles
instrument records.  The embedding models:

* `Yaml` — the `yaml_rust::Yaml` value type (`Real`, `Integer`, `String`,
  `Boolean`, `Array`, `Hash`, `Alias`, `Null`, `BadValue`); `Real` carries
  the stored string form, a `Hash` is the entry list of the `BTreeMap`
  (duplicate keys impossible by construction of the parser).
* `Emitent` — the record struct, with `Nat` for `u64`/`usize`.
* `yaml_to_string` — the scalar coercion (`main.rs:258-269`).
* `extract_yaml_from_doc` (`main.rs:206-221`) — parametrised over the
  regex-match result (a list of match_list, each a list of optional capture
  groups, group 0 first) and over the `YamlLoader::load_from_str` parser
  (`loader`), which are external library code.
* `download_emitents_data` (`main.rs:286-375`) — parametrised over the four
  extraction results; the transport/regex layers are external.  The Rust
  `HashMap` is modelled as an association list: `mapInsert` replaces the
  value when the key is present and appends otherwise, `mapUpdate` is the
  `get_mut`-and-assign pattern (absent key: no-op), `mapLookup` is `get`.
  `HashMap` drain order is unspecified in Rust; the composed function uses
  insertion order, and `rekeyById` is additionally stated over an arbitrary
  drain sequence where a property depends on the order.
  The `assert!(… == 1)` calls are modelled as `Except.error` outcomes
  carrying the panic message.
* `download_emitent_info` (`main.rs:271-284`) — parametrised over the regex
  capture outcome and over the parser.
* `resolve_code` / `resolve_market_name` — the nested-field resolutions the
  driver performs on the fetched value (`main.rs:408-430`).
-/

/-- Model of `yaml_rust::Yaml`.  Constructor names follow the Rust enum (lower-cased;
`aliasRef` stands for `Yaml::Alias`). -/
inductive Yaml where
  | real (v : String)
  | integer (v : Int)
  | string (v : String)
  | boolean (v : Bool)
  | array (v : List Yaml)
  | hash (v : List (Yaml × Yaml))
  | aliasRef (v : Nat)
  | null
  | badValue

/-- The `Emitent` struct (`main.rs:223-233`). -/
structure Emitent where
  internal_id : Nat
  id : String
  name : String
  market_id : String
  market_name : String
  uri : String
  code : String
deriving DecidableEq, Repr

/-- Rust `#[derive(Default)]` for `Emitent`: all fields empty/zero. -/
def Emitent.default : Emitent :=
  { internal_id := 0, id := "", name := "", market_id := "", market_name := "",
    uri := "", code := "" }

/-- Model of `HashMap::contains_key` on the association list. -/
def hasKey {κ ν : Type} [DecidableEq κ] (m : List (κ × ν)) (k : κ) : Bool :=
  m.any (fun p => decide (p.1 = k))

/-- Model of `HashMap::insert`: replace the value when the key is present, otherwise
add the new entry. -/
def mapInsert {κ ν : Type} [DecidableEq κ] (m : List (κ × ν)) (k : κ) (v : ν) :
    List (κ × ν) :=
  if hasKey m k then m.map (fun p => if p.1 = k then (k, v) else p)
  else m ++ [(k, v)]

/-- The `if let Some(x) = map.get_mut(&k) { mutate x }` pattern: update the
entry at `k` in place; do nothing when `k` is absent. -/
def mapUpdate {κ ν : Type} [DecidableEq κ] (m : List (κ × ν)) (k : κ) (f : ν → ν) :
    List (κ × ν) :=
  m.map (fun p => if p.1 = k then (p.1, f p.2) else p)

/-- Model of `HashMap::get` on the association list. -/
def mapLookup {κ ν : Type} [DecidableEq κ] : List (κ × ν) → κ → Option ν
  | [], _ => none
  | p :: rest, k => if p.1 = k then some p.2 else mapLookup rest k

/-- Function `yaml_to_string` (`main.rs:258-269`): `Real`/`String` yield the stored
string, `Integer`/`Boolean` their `to_string()` form, everything else warns
and yields the empty string. -/
def yaml_to_string : Yaml → String
  | .real id => id
  | .string id => id
  | .integer id => toString id
  | .boolean id => toString id
  | .array _ => ""
  | .hash _ => ""
  | .aliasRef _ => ""
  | .null => ""
  | .badValue => ""

/-- The `match … { &Yaml::Array(ref data) => data.clone(), _ => Vec::new() }`
pattern used on each of the three array extractions. -/
def yamlArrayOrEmpty : Yaml → List Yaml
  | .array data => data
  | _ => []

/-- The `match … { &Yaml::Hash(ref data) => data.clone(), _ => BTreeMap::new() }`
pattern used on the URL-map extraction. -/
def yamlHashOrEmpty : Yaml → List (Yaml × Yaml)
  | .hash data => data
  | _ => []

/-- Whether a parsed value is `Yaml::Array`. -/
def Yaml.isArr : Yaml → Bool
  | .array _ => true
  | _ => false

/-- Whether a parsed value is `Yaml::Hash`. -/
def Yaml.isHashValue : Yaml → Bool
  | .hash _ => true
  | _ => false

/-- Step 1 of the assembler (`main.rs:302-308`): for each
`(internal_id, emitent_id)` of `emitent_ids_yaml.iter().enumerate()`, insert a
fresh record `Emitent { internal_id, id: yaml_to_string(emitent_id), ..default }`
into the `usize`-keyed map. -/
def buildEmitents (emitent_ids_yaml : List Yaml) : List (Nat × Emitent) :=
  emitent_ids_yaml.enum.foldl
    (fun m p =>
      mapInsert m p.1
        { Emitent.default with internal_id := p.1, id := yaml_to_string p.2 })
    []

/-- Step 2 of the assembler (`main.rs:319-325`): positional join of the name
array; an index with no record is logged and dropped. -/
def applyNames (m : List (Nat × Emitent)) (names : List Yaml) :
    List (Nat × Emitent) :=
  names.enum.foldl
    (fun m p => mapUpdate m p.1 (fun e => { e with name := yaml_to_string p.2 }))
    m

/-- Step 3 of the assembler (`main.rs:337-343`): positional join of the market
array; an index with no record is logged and dropped. -/
def applyMarkets (m : List (Nat × Emitent)) (markets : List Yaml) :
    List (Nat × Emitent) :=
  markets.enum.foldl
    (fun m p =>
      mapUpdate m p.1 (fun e => { e with market_id := yaml_to_string p.2 }))
    m

/-- Step 4 of the assembler (`main.rs:345-349`): drain the index-keyed map and
re-key every record by its `id` string.  `order` is the drain sequence of the
`HashMap`, whose order Rust leaves unspecified. -/
def rekeyById (order : List Emitent) : List (String × Emitent) :=
  order.foldl (fun m e => mapInsert m e.id e) []

/-- Step 5 of the assembler (`main.rs:360-366`): for each key/value pair of the
URL map, set `uri` on the record whose `id` equals the coerced key; pairs with
no matching record are logged and dropped. -/
def applyUris (m : List (String × Emitent)) (uris : List (Yaml × Yaml)) :
    List (String × Emitent) :=
  uris.foldl
    (fun m p =>
      mapUpdate m (yaml_to_string p.1)
        (fun e => { e with uri := yaml_to_string p.2 }))
    m

/-- Function `download_emitents_data` (`main.rs:286-375`), parametrised over the four
results of `extract_yaml_from_doc` on the catalog document (the transport and
regex layers are external library code).  Each `assert!(… == 1)` is modelled
as an `Except.error` carrying the panic message; both drains of the `HashMap`s
are taken in insertion order (Rust leaves the order unspecified; `rekeyById`
above is stated over an arbitrary drain sequence). -/
def download_emitents_data (emitent_id_sources emitent_name_sources
    emitent_market_sources emitent_uris_sources : List Yaml) :
    Except String (List Emitent) :=
  if emitent_id_sources.length ≠ 1 then
    .error "assertion failed: emitent_id_sources.len() == 1"
  else
    let emitent_ids_yaml := yamlArrayOrEmpty (emitent_id_sources.headD .null)
    let emitents := buildEmitents emitent_ids_yaml
    if emitent_name_sources.length ≠ 1 then
      .error "assertion failed: emitent_name_sources.len() == 1"
    else
      let emitent_names_yaml :=
        yamlArrayOrEmpty (emitent_name_sources.headD .null)
      let emitents := applyNames emitents emitent_names_yaml
      if emitent_market_sources.length ≠ 1 then
        .error "assertion failed: emitent_market_sources.len() == 1"
      else
        let emitent_markets_yaml :=
          yamlArrayOrEmpty (emitent_market_sources.headD .null)
        let emitents := applyMarkets emitents emitent_markets_yaml
        let emitents_by_id := rekeyById (emitents.map Prod.snd)
        if emitent_uris_sources.length ≠ 1 then
          .error "assertion failed: emitent_uris_sources.len() == 1"
        else
          let emitent_uris_yaml :=
            yamlHashOrEmpty (emitent_uris_sources.headD .null)
          .ok ((applyUris emitents_by_id emitent_uris_yaml).map Prod.snd)

/-- The parsed values one populated capture contributes: the documents from
the loader on success, nothing on parse failure (the warning branch). -/
def captureYamls (loader : String → Except String (List Yaml)) :
    Option String → List Yaml
  | none => []
  | some text =>
    match loader text with
    | .ok yamls_found => yamls_found
    | .error _ => []

/-- Function `extract_yaml_from_doc` (`main.rs:206-221`), parametrised over the result
of applying the regex to the document — `match_list` is the list of
non-overlapping match_list in order, each a list of capture groups (group 0
first, `none` for an unpopulated group) — and over
`YamlLoader::load_from_str` (`loader`).  For every match, every populated
group after group 0 is parsed; successes are appended to the accumulator,
failures are logged and skipped. -/
def extract_yaml_from_doc (loader : String → Except String (List Yaml))
    (match_list : List (List (Option String))) : List Yaml :=
  match_list.foldl
    (fun yamls_parsed captures =>
      ((captures.drop 1).filter Option.isSome).foldl
        (fun acc capture =>
          match capture with
          | some text =>
            match loader text with
            | .ok yamls_found => acc ++ yamls_found
            | .error _ => acc
          | none => acc)
        yamls_parsed)
    []

/-- The `ParseError` enum (`main.rs:72-75`); the scan error is carried as its
message string. -/
inductive ParseError where
  | blockNotFound (details : String)
  | yamlError (msg : String)
deriving DecidableEq, Repr

/-- Whether a fetch outcome is the typed "block not found" error. -/
def isBlockNotFoundError : Except ParseError Yaml → Bool
  | .error (.blockNotFound _) => true
  | _ => false

/-- Function `download_emitent_info` (`main.rs:271-284`), parametrised over the outcome
of the regex `Main.issue = (.*);` on the fetched document — `capture_result`
is `none` when the pattern does not match, `some none` when group 1 is
unpopulated, `some (some text)` otherwise — and over
`YamlLoader::load_from_str` (`loader`).  Errors are reported at the
`ParseError` level (the caller wraps them into `MinerError::ParseError`). -/
def download_emitent_info (capture_result : Option (Option String))
    (loader : String → Except String (List Yaml)) : Except ParseError Yaml :=
  match capture_result with
  | none => .error (.blockNotFound "Emitent captures not found")
  | some none => .error (.blockNotFound "Emitent capture does not exist")
  | some (some capture) =>
    match loader capture with
    | .error err => .error (.yamlError err)
    | .ok yamls =>
      match yamls.head? with
      | none => .error (.blockNotFound "Yaml block cannot be decoded")
      | some first => .ok first

/-- Model of `Yaml::as_hash` of `yaml_rust`. -/
def Yaml.as_hash : Yaml → Option (List (Yaml × Yaml))
  | .hash data => some data
  | _ => none

/-- Model of `Yaml::as_str` of `yaml_rust`. -/
def Yaml.as_str : Yaml → Option String
  | .string s => some s
  | _ => none

/-- Equality of a `Yaml` map key with a plain-word key: `Yaml::from_str` of a
plain word such as `"quote"` yields `Yaml::String`, and `BTreeMap::get`
compares with `Yaml` equality, which holds exactly for a `Yaml::String` key
with equal content. -/
def yamlKeyIsStr : Yaml → String → Bool
  | .string s, k => s == k
  | _, _ => false

/-- Model of `BTreeMap::get(&Yaml::from_str(k))` for a plain-word key `k`. -/
def hash_get : List (Yaml × Yaml) → String → Option Yaml
  | [], _ => none
  | p :: rest, k => if yamlKeyIsStr p.1 k then some p.2 else hash_get rest k

/-- The trading-code resolution the driver performs on the fetched value
(`main.rs:408-417`): `as_hash → get "quote" → as_hash → get "code" → as_str`,
defaulting to the empty string at any failed hop. -/
def resolve_code (yaml : Yaml) : String :=
  (((((yaml.as_hash).bind (fun h => hash_get h "quote")).bind
    Yaml.as_hash).bind (fun h => hash_get h "code")).bind Yaml.as_str).getD ""

/-- The market-name resolution (`main.rs:419-430`):
`as_hash → get "quote" → as_hash → get "market" → as_hash → get "title" →
as_str`, defaulting to the empty string at any failed hop. -/
def resolve_market_name (yaml : Yaml) : String :=
  (((((((yaml.as_hash).bind (fun h => hash_get h "quote")).bind
    Yaml.as_hash).bind (fun h => hash_get h "market")).bind
    Yaml.as_hash).bind (fun h => hash_get h "title")).bind Yaml.as_str).getD ""

/-- The record kept for key `k` by a sequence of last-wins inserts: the last
element of `order` whose `id` is `k`. -/
def lastById : List Emitent → String → Option Emitent
  | [], _ => none
  | e :: rest, k =>
    match lastById rest k with
    | some r => some r
    | none => if e.id = k then some e else none

/-- The (key, internal_id, id) signature of a keyed record collection; the
positional joins and the URL join never touch these fields. -/
def entrySig {κ : Type} (m : List (κ × Emitent)) : List (κ × Nat × String) :=
  m.map (fun p => (p.1, (p.2.internal_id, p.2.id)))

/- ------------------------------------------------------------------ -/
/- Helper lemmas about the association-list model of `HashMap`.        -/
/- ------------------------------------------------------------------ -/

theorem foldl_invariant {α σ : Type _} (P : σ → Prop) (step : σ → α → σ)
    (l : List α) (s : σ) (h0 : P s)
    (hstep : ∀ t a, a ∈ l → P t → P (step t a)) :
    P (l.foldl step s) := by
  induction l generalizing s with
  | nil => exact h0
  | cons a as ih =>
    exact ih (step s a) (hstep s a (by simp) h0)
      (fun t b hb hp => hstep t b (by simp [hb]) hp)

theorem hasKey_iff {κ ν : Type} [DecidableEq κ] (m : List (κ × ν)) (k : κ) :
    hasKey m k = true ↔ ∃ p ∈ m, p.1 = k := by
  simp [hasKey, List.any_eq_true]

theorem hasKey_eq_false_iff {κ ν : Type} [DecidableEq κ] (m : List (κ × ν))
    (k : κ) : hasKey m k = false ↔ ∀ p ∈ m, p.1 ≠ k := by
  rw [← Bool.not_eq_true, hasKey_iff]
  push_neg
  exact Iff.rfl

theorem mapInsert_fresh {κ ν : Type} [DecidableEq κ] {m : List (κ × ν)} {k : κ}
    (h : hasKey m k = false) (v : ν) : mapInsert m k v = m ++ [(k, v)] := by
  simp [mapInsert, h]

theorem mem_mapInsert {κ ν : Type} [DecidableEq κ] {m : List (κ × ν)} {k : κ}
    {v : ν} {p : κ × ν} (h : p ∈ mapInsert m k v) : p ∈ m ∨ p = (k, v) := by
  unfold mapInsert at h
  split at h
  · rcases List.mem_map.mp h with ⟨q, hq, hqe⟩
    by_cases hk : q.1 = k
    · right
      rw [← hqe, if_pos hk]
    · left
      rw [← hqe, if_neg hk]
      exact hq
  · rcases List.mem_append.mp h with h1 | h1
    · exact Or.inl h1
    · right
      simpa using h1

theorem mapInsert_keys {κ ν : Type} [DecidableEq κ] (m : List (κ × ν)) (k : κ)
    (v : ν) :
    (mapInsert m k v).map Prod.fst
      = if hasKey m k then m.map Prod.fst else m.map Prod.fst ++ [k] := by
  unfold mapInsert
  split
  · rw [List.map_map]
    apply List.map_congr_left
    intro p _
    by_cases hk : p.1 = k
    · simp [hk]
    · simp [hk]
  · simp

theorem mapLookup_eq_none_iff {κ ν : Type} [DecidableEq κ] (m : List (κ × ν))
    (k : κ) : mapLookup m k = none ↔ ∀ p ∈ m, p.1 ≠ k := by
  induction m with
  | nil => simp [mapLookup]
  | cons p rest ih =>
    by_cases h : p.1 = k
    · simp [mapLookup, h]
    · simp [mapLookup, h, ih]

theorem mapLookup_append {κ ν : Type} [DecidableEq κ] (m1 m2 : List (κ × ν))
    (k : κ) :
    mapLookup (m1 ++ m2) k
      = match mapLookup m1 k with
        | some v => some v
        | none => mapLookup m2 k := by
  induction m1 with
  | nil => simp [mapLookup]
  | cons p rest ih =>
    by_cases h : p.1 = k <;> simp [mapLookup, h, ih]

theorem mapLookup_isSome_of_hasKey {κ ν : Type} [DecidableEq κ]
    (m : List (κ × ν)) (k : κ) :
    hasKey m k = true → ∃ w, mapLookup m k = some w := by
  induction m with
  | nil => intro h; simp [hasKey] at h
  | cons p rest ih =>
    intro h
    by_cases hk : p.1 = k
    · exact ⟨p.2, by simp [mapLookup, hk]⟩
    · rcases (hasKey_iff _ _).mp h with ⟨q, hq, hqk⟩
      rcases List.mem_cons.mp hq with rfl | hq2
      · exact absurd hqk hk
      · rcases ih ((hasKey_iff _ _).mpr ⟨q, hq2, hqk⟩) with ⟨w, hw⟩
        exact ⟨w, by simp [mapLookup, hk, hw]⟩

theorem mapLookup_replace {κ ν : Type} [DecidableEq κ] (m : List (κ × ν))
    (k q : κ) (v : ν) :
    mapLookup (m.map (fun p => if p.1 = k then (k, v) else p)) q
      = if q = k then (mapLookup m k).map (fun _ => v) else mapLookup m q := by
  induction m with
  | nil => simp [mapLookup]
  | cons p rest ih =>
    simp only [List.map_cons]
    by_cases hk : p.1 = k
    · by_cases hq : q = k
      · subst hq
        simp [mapLookup, hk]
      · have hq2 : ¬(k = q) := fun he => hq he.symm
        simp [mapLookup, hk, hq, hq2, ih]
    · by_cases hq : q = k
      · subst hq
        simp [mapLookup, hk, ih]
      · by_cases hpq : p.1 = q
        · simp [mapLookup, hk, hpq, hq]
        · simp [mapLookup, hk, hpq, hq, ih]

theorem mapLookup_mapInsert {κ ν : Type} [DecidableEq κ] (m : List (κ × ν))
    (k q : κ) (v : ν) :
    mapLookup (mapInsert m k v) q = if q = k then some v else mapLookup m q := by
  unfold mapInsert
  split
  · next h =>
    rw [mapLookup_replace]
    by_cases hq : q = k
    · subst hq
      rcases mapLookup_isSome_of_hasKey m q h with ⟨w, hw⟩
      simp [hw]
    · simp [hq]
  · next h =>
    rw [mapLookup_append]
    by_cases hq : q = k
    · subst hq
      have hnone : mapLookup m q = none :=
        (mapLookup_eq_none_iff m q).mpr ((hasKey_eq_false_iff m q).mp
          (Bool.eq_false_iff.mpr h))
      simp [hnone, mapLookup]
    · have hq2 : ¬(k = q) := fun he => hq he.symm
      cases hm : mapLookup m q
      · simp [mapLookup, hm, hq, hq2]
      · simp [hm, hq]

theorem mapUpdate_keys {κ ν : Type} [DecidableEq κ] (m : List (κ × ν)) (k : κ)
    (f : ν → ν) : (mapUpdate m k f).map Prod.fst = m.map Prod.fst := by
  unfold mapUpdate
  rw [List.map_map]
  apply List.map_congr_left
  intro p _
  by_cases hk : p.1 = k <;> simp [hk]

theorem mapUpdate_of_forall_ne {κ ν : Type} [DecidableEq κ]
    {m : List (κ × ν)} {k : κ} (f : ν → ν) (h : ∀ p ∈ m, p.1 ≠ k) :
    mapUpdate m k f = m := by
  unfold mapUpdate
  induction m with
  | nil => rfl
  | cons p rest ih =>
    simp only [List.map_cons]
    rw [if_neg (h p (by simp)), ih (fun q hq => h q (by simp [hq]))]

theorem mapUpdate_forall {κ : Type} [DecidableEq κ] {P : Emitent → Prop}
    {m : List (κ × Emitent)} (h : ∀ p ∈ m, P p.2) {k : κ}
    {f : Emitent → Emitent} (hf : ∀ e, P e → P (f e)) :
    ∀ p ∈ mapUpdate m k f, P p.2 := by
  intro p hp
  rcases List.mem_map.mp hp with ⟨q, hq, hqe⟩
  by_cases hk : q.1 = k
  · rw [← hqe, if_pos hk]
    exact hf q.2 (h q hq)
  · rw [← hqe, if_neg hk]
    exact h q hq

theorem entrySig_mapUpdate {κ : Type} [DecidableEq κ] (m : List (κ × Emitent))
    (k : κ) (f : Emitent → Emitent)
    (hf : ∀ e, (f e).internal_id = e.internal_id ∧ (f e).id = e.id) :
    entrySig (mapUpdate m k f) = entrySig m := by
  unfold entrySig mapUpdate
  rw [List.map_map]
  apply List.map_congr_left
  intro p _
  by_cases hk : p.1 = k
  · simp [hk, (hf p.2).1, (hf p.2).2]
  · simp [hk]

theorem length_of_entrySig_eq {κ : Type} {m1 m2 : List (κ × Emitent)}
    (h : entrySig m1 = entrySig m2) : m1.length = m2.length := by
  have := congrArg List.length h
  simpa [entrySig] using this

theorem keys_of_entrySig_eq {κ : Type} {m1 m2 : List (κ × Emitent)}
    (h : entrySig m1 = entrySig m2) : m1.map Prod.fst = m2.map Prod.fst := by
  have := congrArg (List.map (fun t : κ × Nat × String => t.1)) h
  simpa [entrySig, List.map_map] using this

theorem idProj_of_entrySig_eq {κ : Type} {m1 m2 : List (κ × Emitent)}
    (h : entrySig m1 = entrySig m2) :
    m1.map (fun p => p.2.id) = m2.map (fun p => p.2.id) := by
  have := congrArg (List.map (fun t : κ × Nat × String => t.2.2)) h
  simpa [entrySig, List.map_map] using this

/- ------------------------------------------------------------------ -/
/- Helper lemmas about the assembler stages.                           -/
/- ------------------------------------------------------------------ -/

theorem buildEmitents_aux (rest : List Yaml) :
    ∀ (k : Nat) (acc : List (Nat × Emitent)), (∀ p ∈ acc, p.1 < k) →
    (List.enumFrom k rest).foldl
      (fun m p =>
        mapInsert m p.1
          { Emitent.default with internal_id := p.1, id := yaml_to_string p.2 })
      acc
    = acc ++ (List.enumFrom k rest).map
        (fun p =>
          (p.1,
            { Emitent.default with internal_id := p.1, id := yaml_to_string p.2 })) := by
  induction rest with
  | nil => intro k acc _; simp
  | cons y ys ih =>
    intro k acc h
    rw [List.enumFrom_cons]
    simp only [List.foldl_cons, List.map_cons]
    have hfresh : hasKey acc k = false := by
      rw [hasKey_eq_false_iff]
      intro p hp
      exact Nat.ne_of_lt (h p hp)
    rw [mapInsert_fresh hfresh]
    rw [ih (k + 1) _ ?_]
    · rw [List.append_assoc]
      rfl
    · intro p hp
      rcases List.mem_append.mp hp with h1 | h1
      · exact Nat.lt_succ_of_lt (h p h1)
      · rw [List.mem_singleton] at h1
        rw [h1]
        exact Nat.lt_succ_self k

theorem buildEmitents_eq (ids : List Yaml) :
    buildEmitents ids = ids.enum.map
      (fun p =>
        (p.1,
          { Emitent.default with internal_id := p.1, id := yaml_to_string p.2 })) := by
  unfold buildEmitents
  have h := buildEmitents_aux ids 0 [] (by simp)
  simpa using h

theorem buildEmitents_keys_lt (ids : List Yaml) :
    ∀ x ∈ (buildEmitents ids).map Prod.fst, x < ids.length := by
  intro x hx
  rw [buildEmitents_eq, List.map_map] at hx
  rcases List.mem_map.mp hx with ⟨p, hp, hpe⟩
  rw [← hpe]
  exact List.fst_lt_of_mem_enum hp

theorem entrySig_applyNames (m : List (Nat × Emitent)) (names : List Yaml) :
    entrySig (applyNames m names) = entrySig m := by
  unfold applyNames
  apply foldl_invariant (fun s => entrySig s = entrySig m)
  · rfl
  · intro t a _ ht
    rw [← ht]
    exact entrySig_mapUpdate _ _ _ (fun e => ⟨rfl, rfl⟩)

theorem entrySig_applyMarkets (m : List (Nat × Emitent)) (markets : List Yaml) :
    entrySig (applyMarkets m markets) = entrySig m := by
  unfold applyMarkets
  apply foldl_invariant (fun s => entrySig s = entrySig m)
  · rfl
  · intro t a _ ht
    rw [← ht]
    exact entrySig_mapUpdate _ _ _ (fun e => ⟨rfl, rfl⟩)

theorem entrySig_applyUris (m : List (String × Emitent))
    (uris : List (Yaml × Yaml)) : entrySig (applyUris m uris) = entrySig m := by
  unfold applyUris
  apply foldl_invariant (fun s => entrySig s = entrySig m)
  · rfl
  · intro t a _ ht
    rw [← ht]
    exact entrySig_mapUpdate _ _ _ (fun e => ⟨rfl, rfl⟩)

theorem foldl_update_high (g : Yaml → Emitent → Emitent) (n : Nat)
    (rest : List Yaml) :
    ∀ (k : Nat) (m : List (Nat × Emitent)),
    (∀ x ∈ m.map Prod.fst, x < n) → n ≤ k →
    (List.enumFrom k rest).foldl (fun acc p => mapUpdate acc p.1 (g p.2)) m
      = m := by
  induction rest with
  | nil => intro k m _ _; simp
  | cons y ys ih =>
    intro k m hm hk
    rw [List.enumFrom_cons]
    simp only [List.foldl_cons]
    have hid : mapUpdate m k (g y) = m := by
      apply mapUpdate_of_forall_ne
      intro p hp
      have : p.1 < n := hm p.1 (List.mem_map_of_mem Prod.fst hp)
      omega
    rw [hid]
    exact ih (k + 1) m hm (by omega)

theorem applyNames_take (m : List (Nat × Emitent)) (names : List Yaml) (n : Nat)
    (hm : ∀ x ∈ m.map Prod.fst, x < n) :
    applyNames m names = applyNames m (names.take n) := by
  by_cases hlen : names.length ≤ n
  · rw [List.take_of_length_le hlen]
  · have hsplit := (List.take_append_drop n names).symm
    conv_lhs => rw [hsplit]
    unfold applyNames
    have henum : (names.take n ++ names.drop n).enum
        = (names.take n).enum
          ++ List.enumFrom (names.take n).length (names.drop n) := by
      show List.enumFrom 0 (names.take n ++ names.drop n) = _
      rw [List.enumFrom_append]
      rw [Nat.zero_add]
      rfl
    rw [henum, List.foldl_append]
    have hkeys : ∀ x ∈ (applyNames m (names.take n)).map Prod.fst, x < n := by
      rw [keys_of_entrySig_eq (entrySig_applyNames m (names.take n))]
      exact hm
    have hlen2 : (names.take n).length = n :=
      List.length_take_of_le (Nat.le_of_lt (Nat.lt_of_not_le hlen))
    exact foldl_update_high (fun y e => { e with name := yaml_to_string y }) n
      (names.drop n) (names.take n).length (applyNames m (names.take n)) hkeys
      (by omega)

theorem applyMarkets_take (m : List (Nat × Emitent)) (markets : List Yaml)
    (n : Nat) (hm : ∀ x ∈ m.map Prod.fst, x < n) :
    applyMarkets m markets = applyMarkets m (markets.take n) := by
  by_cases hlen : markets.length ≤ n
  · rw [List.take_of_length_le hlen]
  · have hsplit := (List.take_append_drop n markets).symm
    conv_lhs => rw [hsplit]
    unfold applyMarkets
    have henum : (markets.take n ++ markets.drop n).enum
        = (markets.take n).enum
          ++ List.enumFrom (markets.take n).length (markets.drop n) := by
      show List.enumFrom 0 (markets.take n ++ markets.drop n) = _
      rw [List.enumFrom_append]
      rw [Nat.zero_add]
      rfl
    rw [henum, List.foldl_append]
    have hkeys : ∀ x ∈ (applyMarkets m (markets.take n)).map Prod.fst, x < n := by
      rw [keys_of_entrySig_eq (entrySig_applyMarkets m (markets.take n))]
      exact hm
    have hlen2 : (markets.take n).length = n :=
      List.length_take_of_le (Nat.le_of_lt (Nat.lt_of_not_le hlen))
    exact foldl_update_high (fun y e => { e with market_id := yaml_to_string y })
      n (markets.drop n) (markets.take n).length
      (applyMarkets m (markets.take n)) hkeys (by omega)

theorem rekey_fold_nodup (order : List Emitent) :
    ∀ acc : List (String × Emitent),
    (∀ e ∈ order, hasKey acc e.id = false) → (order.map Emitent.id).Nodup →
    order.foldl (fun m e => mapInsert m e.id e) acc
      = acc ++ order.map (fun e => (e.id, e)) := by
  induction order with
  | nil => intro acc _ _; simp
  | cons e rest ih =>
    intro acc hfresh hnd
    simp only [List.foldl_cons, List.map_cons]
    rw [mapInsert_fresh (hfresh e (by simp)) e]
    rw [ih _ ?_ ?_]
    · rw [List.append_assoc]
      rfl
    · intro x hx
      rw [hasKey_eq_false_iff]
      intro p hp
      rcases List.mem_append.mp hp with h1 | h1
      · exact (hasKey_eq_false_iff _ _).mp (hfresh x (by simp [hx])) p h1
      · rw [List.mem_singleton] at h1
        rw [h1]
        show e.id ≠ x.id
        have hmem : x.id ∈ rest.map Emitent.id := List.mem_map_of_mem _ hx
        have hnotin : e.id ∉ rest.map Emitent.id := (List.nodup_cons.mp hnd).1
        intro hcontra
        rw [hcontra] at hnotin
        exact hnotin hmem
    · exact (List.nodup_cons.mp hnd).2

theorem rekeyById_of_nodup (order : List Emitent)
    (h : (order.map Emitent.id).Nodup) :
    rekeyById order = order.map (fun e => (e.id, e)) := by
  unfold rekeyById
  have hfold := rekey_fold_nodup order [] (fun e _ => rfl) h
  simpa using hfold

theorem rekey_fold_lookup (order : List Emitent) :
    ∀ (acc : List (String × Emitent)) (k : String),
    mapLookup (order.foldl (fun m e => mapInsert m e.id e) acc) k
      = match lastById order k with
        | some r => some r
        | none => mapLookup acc k := by
  induction order with
  | nil => intro acc k; simp [lastById]
  | cons e rest ih =>
    intro acc k
    simp only [List.foldl_cons]
    rw [ih]
    cases h : lastById rest k with
    | some r =>
      have hcons : lastById (e :: rest) k = some r := by
        simp only [lastById, h]
      rw [hcons]
    | none =>
      have hcons : lastById (e :: rest) k = if e.id = k then some e else none := by
        simp only [lastById, h]
      rw [mapLookup_mapInsert, hcons]
      by_cases he : e.id = k
      · rw [if_pos he.symm, if_pos he]
      · rw [if_neg (fun x => he x.symm), if_neg he]

theorem rekeyById_lookup (order : List Emitent) (k : String) :
    mapLookup (rekeyById order) k = lastById order k := by
  unfold rekeyById
  rw [rekey_fold_lookup]
  cases h : lastById order k
  · simp [mapLookup]
  · simp

theorem rekeyById_keys_nodup (order : List Emitent) :
    ((rekeyById order).map Prod.fst).Nodup := by
  unfold rekeyById
  apply foldl_invariant
    (fun s : List (String × Emitent) => (s.map Prod.fst).Nodup)
  · simp
  · intro t e _ ht
    rw [mapInsert_keys]
    split
    · exact ht
    · next h =>
      rw [List.nodup_append]
      refine ⟨ht, List.nodup_singleton _, ?_⟩
      intro x hx hx1
      rw [List.mem_singleton] at hx1
      subst hx1
      have hne := (hasKey_eq_false_iff t e.id).mp (Bool.eq_false_iff.mpr h)
      rcases List.mem_map.mp hx with ⟨q, hq, hqe⟩
      exact hne q hq hqe

theorem rekeyById_values_mem (order : List Emitent) :
    ∀ p ∈ rekeyById order, p.2 ∈ order := by
  unfold rekeyById
  apply foldl_invariant
    (fun s : List (String × Emitent) => ∀ p ∈ s, p.2 ∈ order)
  · intro p hp
    exact absurd hp (List.not_mem_nil p)
  · intro t e he ht p hp
    rcases mem_mapInsert hp with h1 | h1
    · exact ht p h1
    · rw [h1]
      exact he

theorem rekeyById_key_eq_id (order : List Emitent) :
    ∀ p ∈ rekeyById order, p.1 = p.2.id := by
  unfold rekeyById
  apply foldl_invariant
    (fun s : List (String × Emitent) => ∀ p ∈ s, p.1 = p.2.id)
  · intro p hp
    exact absurd hp (List.not_mem_nil p)
  · intro t e _ ht p hp
    rcases mem_mapInsert hp with h1 | h1
    · exact ht p h1
    · rw [h1]

theorem rekeyById_keys_subset (order : List Emitent) :
    ∀ p ∈ rekeyById order, p.1 ∈ order.map Emitent.id := by
  intro p hp
  rw [rekeyById_key_eq_id order p hp]
  exact List.mem_map_of_mem Emitent.id (rekeyById_values_mem order p hp)

theorem applyUris_append (m : List (String × Emitent))
    (u1 u2 : List (Yaml × Yaml)) :
    applyUris m (u1 ++ u2) = applyUris (applyUris m u1) u2 := by
  unfold applyUris
  exact List.foldl_append _ _ u1 u2

theorem applyUris_cons (m : List (String × Emitent)) (p : Yaml × Yaml)
    (u2 : List (Yaml × Yaml)) :
    applyUris m (p :: u2)
      = applyUris
          (mapUpdate m (yaml_to_string p.1)
            (fun e => { e with uri := yaml_to_string p.2 })) u2 := rfl

theorem applyNames_nil (names : List Yaml) : applyNames [] names = [] := by
  unfold applyNames
  apply foldl_invariant (fun s : List (Nat × Emitent) => s = [])
  · rfl
  · intro t a _ ht
    rw [ht]
    rfl

theorem applyMarkets_nil (markets : List Yaml) : applyMarkets [] markets = [] := by
  unfold applyMarkets
  apply foldl_invariant (fun s : List (Nat × Emitent) => s = [])
  · rfl
  · intro t a _ ht
    rw [ht]
    rfl

theorem applyUris_nil (uris : List (Yaml × Yaml)) : applyUris [] uris = [] := by
  unfold applyUris
  apply foldl_invariant (fun s : List (String × Emitent) => s = [])
  · rfl
  · intro t a _ ht
    rw [ht]
    rfl

theorem foldl_mapUpdate_forall {κ β : Type} [DecidableEq κ] (P : Emitent → Prop)
    (key : β → κ) (g : β → Emitent → Emitent)
    (hg : ∀ b e, P e → P (g b e)) (l : List β) (m : List (κ × Emitent))
    (hm : ∀ p ∈ m, P p.2) :
    ∀ p ∈ l.foldl (fun acc b => mapUpdate acc (key b) (g b)) m, P p.2 := by
  apply foldl_invariant (fun s : List (κ × Emitent) => ∀ p ∈ s, P p.2)
  · exact hm
  · intro t b _ ht
    exact mapUpdate_forall ht (hg b)

/- ------------------------------------------------------------------ -/
/- Helper lemmas about `extract_yaml_from_doc`.                        -/
/- ------------------------------------------------------------------ -/

theorem capture_fold_filter (loader : String → Except String (List Yaml))
    (caps : List (Option String)) :
    ∀ acc : List Yaml,
    (caps.filter Option.isSome).foldl
      (fun acc capture =>
        match capture with
        | some text =>
          match loader text with
          | .ok yamls_found => acc ++ yamls_found
          | .error _ => acc
        | none => acc) acc
    = acc ++ (caps.map (captureYamls loader)).flatten := by
  induction caps with
  | nil => intro acc; simp
  | cons c cs ih =>
    intro acc
    cases c with
    | none =>
      rw [List.filter_cons_of_neg (by simp)]
      simp only [List.map_cons, List.flatten_cons]
      rw [ih]
      simp [captureYamls]
    | some t =>
      rw [List.filter_cons_of_pos (by simp)]
      simp only [List.foldl_cons, List.map_cons, List.flatten_cons]
      cases hl : loader t with
      | ok ys =>
        rw [ih]
        simp [captureYamls, hl, List.append_assoc]
      | error err =>
        rw [ih]
        simp [captureYamls, hl]

theorem extract_fold_eq (loader : String → Except String (List Yaml))
    (mls : List (List (Option String))) :
    ∀ acc : List Yaml,
    mls.foldl
      (fun yamls_parsed captures =>
        ((captures.drop 1).filter Option.isSome).foldl
          (fun acc capture =>
            match capture with
            | some text =>
              match loader text with
              | .ok yamls_found => acc ++ yamls_found
              | .error _ => acc
            | none => acc)
          yamls_parsed)
      acc
    = acc ++ (mls.map
        (fun captures =>
          ((captures.drop 1).map (captureYamls loader)).flatten)).flatten := by
  induction mls with
  | nil => intro acc; simp
  | cons caps rest ih =>
    intro acc
    simp only [List.foldl_cons, List.map_cons, List.flatten_cons]
    rw [capture_fold_filter, ih, List.append_assoc]

/-- C8: for every pattern-application result and every parser, the literal
extractor returns the concatenation, in match order, of all successfully
parsed top-level values across all matches and all populated capture groups
(group 0 excluded); a capture that fails to parse contributes nothing —
`captureYamls` yields `[]` for it — and neither aborts the extraction nor
affects the other captures, as witnessed by the per-match decomposition and
by extraction distributing over appending further matches. -/
theorem extract_yaml_concatenation (loader : String → Except String (List Yaml))
    (match_list : List (List (Option String))) :
    extract_yaml_from_doc loader match_list
      = (match_list.map
          (fun captures =>
            ((captures.drop 1).map (captureYamls loader)).flatten)).flatten
    ∧ ∀ more : List (List (Option String)),
        extract_yaml_from_doc loader (match_list ++ more)
          = extract_yaml_from_doc loader match_list
            ++ extract_yaml_from_doc loader more := by
  constructor
  · have h := extract_fold_eq loader match_list []
    unfold extract_yaml_from_doc
    simpa using h
  · intro more
    unfold extract_yaml_from_doc
    rw [extract_fold_eq loader (match_list ++ more) [],
      extract_fold_eq loader match_list [], extract_fold_eq loader more []]
    simp

/-- C2: the scalar coercion is a total function on parsed values: a text
value yields the text itself, an integer its decimal (`toString`) form, a
boolean the strings `"true"`/`"false"`, a real its stored string form, and
sequence, mapping, alias, null and invalid-marker values all yield the empty
string; in particular `"Sberbank"`, `42` and `true` coerce to `"Sberbank"`,
`"42"` and `"true"`. -/
theorem yaml_to_string_total_spec :
    (∀ s, yaml_to_string (Yaml.string s) = s)
    ∧ (∀ s, yaml_to_string (Yaml.real s) = s)
    ∧ (∀ i, yaml_to_string (Yaml.integer i) = toString i)
    ∧ (∀ b, yaml_to_string (Yaml.boolean b) = if b then "true" else "false")
    ∧ (∀ l, yaml_to_string (Yaml.array l) = "")
    ∧ (∀ h, yaml_to_string (Yaml.hash h) = "")
    ∧ (∀ n, yaml_to_string (Yaml.aliasRef n) = "")
    ∧ yaml_to_string Yaml.null = ""
    ∧ yaml_to_string Yaml.badValue = ""
    ∧ yaml_to_string (Yaml.string "Sberbank") = "Sberbank"
    ∧ yaml_to_string (Yaml.integer 42) = "42"
    ∧ yaml_to_string (Yaml.boolean true) = "true" := by
  refine ⟨fun s => rfl, fun s => rfl, fun i => rfl, ?_, fun l => rfl,
    fun h => rfl, fun n => rfl, rfl, rfl, rfl, by decide, by decide⟩
  intro b
  cases b <;> rfl

/-- C4: detail resolution on the fetched mapping
`{quote: {code: "SBER", market: {title: "MICEX"}}}` yields `"SBER"` for the
trading code and `"MICEX"` for the market name; on `{quote: {}}` both
resolutions yield `""`; and a missing key or wrong-shape value at any hop
(root not a mapping, `quote` absent, `code`/`market` absent) yields `""`
rather than a failure — the resolutions are total `String`-valued
functions. -/
theorem detail_resolution_spec :
    resolve_code (Yaml.hash [(Yaml.string "quote", Yaml.hash
        [(Yaml.string "code", Yaml.string "SBER"),
         (Yaml.string "market",
           Yaml.hash [(Yaml.string "title", Yaml.string "MICEX")])])])
      = "SBER"
    ∧ resolve_market_name (Yaml.hash [(Yaml.string "quote", Yaml.hash
        [(Yaml.string "code", Yaml.string "SBER"),
         (Yaml.string "market",
           Yaml.hash [(Yaml.string "title", Yaml.string "MICEX")])])])
      = "MICEX"
    ∧ resolve_code (Yaml.hash [(Yaml.string "quote", Yaml.hash [])]) = ""
    ∧ resolve_market_name (Yaml.hash [(Yaml.string "quote", Yaml.hash [])]) = ""
    ∧ (∀ y : Yaml, y.as_hash = none
        → resolve_code y = "" ∧ resolve_market_name y = "")
    ∧ (∀ h : List (Yaml × Yaml), hash_get h "quote" = none
        → resolve_code (Yaml.hash h) = ""
          ∧ resolve_market_name (Yaml.hash h) = "")
    ∧ (∀ q : List (Yaml × Yaml), hash_get q "code" = none
        → resolve_code (Yaml.hash [(Yaml.string "quote", Yaml.hash q)]) = "")
    ∧ (∀ q : List (Yaml × Yaml), hash_get q "market" = none
        → resolve_market_name
            (Yaml.hash [(Yaml.string "quote", Yaml.hash q)]) = "") := by
  refine ⟨by decide, by decide, by decide, by decide, ?_, ?_, ?_, ?_⟩
  · intro y hy
    constructor <;> simp [resolve_code, resolve_market_name, hy]
  · intro h hh
    constructor <;> simp [resolve_code, resolve_market_name, Yaml.as_hash, hh]
  · intro q hq
    simp [resolve_code, Yaml.as_hash, hash_get, yamlKeyIsStr, hq]
  · intro q hq
    simp [resolve_market_name, Yaml.as_hash, hash_get, yamlKeyIsStr, hq]

/-- Witness for C4: the root value `7` is not a mapping, and both resolutions
yield the empty string on it. -/
theorem detail_resolution_spec_witness :
    (Yaml.integer 7).as_hash = none
    ∧ (resolve_code (Yaml.integer 7) = ""
       ∧ resolve_market_name (Yaml.integer 7) = "") :=
  ⟨rfl, detail_resolution_spec.2.2.2.2.1 (Yaml.integer 7) rfl⟩

/-- C5 counterexample: when the captured literal fails to parse, the detail
fetcher does not return the typed "block not found" error — it returns the
`YamlError` variant wrapping the scan error (cf. `main.rs:277`, where the
scan error is converted via `From`, i.e. to `ParseError::YamlError`). -/
theorem emitent_info_parse_failure_not_block_not_found :
    download_emitent_info (some (some "###"))
        (fun _ => Except.error "scan error")
      = Except.error (ParseError.yamlError "scan error")
    ∧ isBlockNotFoundError
        (download_emitent_info (some (some "###"))
          (fun _ => Except.error "scan error")) = false :=
  ⟨rfl, rfl⟩

/-- C5 amended: the detail fetcher returns the typed "block not found" error
when the pattern `Main.issue = <literal>;` does not match the document, when
the capture group is unpopulated, and when the captured literal parses to
zero documents; when the captured literal fails to parse it returns a typed
YAML scan error (`ParseError::YamlError`) instead; otherwise it returns the
first parsed top-level value. -/
theorem download_emitent_info_spec (loader : String → Except String (List Yaml)) :
    download_emitent_info none loader
      = Except.error (ParseError.blockNotFound "Emitent captures not found")
    ∧ download_emitent_info (some none) loader
      = Except.error (ParseError.blockNotFound "Emitent capture does not exist")
    ∧ (∀ cap err, loader cap = Except.error err →
        download_emitent_info (some (some cap)) loader
          = Except.error (ParseError.yamlError err))
    ∧ (∀ cap, loader cap = Except.ok [] →
        download_emitent_info (some (some cap)) loader
          = Except.error (ParseError.blockNotFound "Yaml block cannot be decoded"))
    ∧ (∀ cap y ys, loader cap = Except.ok (y :: ys) →
        download_emitent_info (some (some cap)) loader = Except.ok y) := by
  refine ⟨rfl, rfl, ?_, ?_, ?_⟩
  · intro cap err h
    simp [download_emitent_info, h]
  · intro cap h
    simp [download_emitent_info, h]
  · intro cap y ys h
    simp [download_emitent_info, h]

/-- Witness for the amended C5: a concrete parser failure yields the
`YamlError` variant. -/
theorem download_emitent_info_spec_witness :
    (fun _ : String => (Except.error "scan error" : Except String (List Yaml)))
        "x" = Except.error "scan error"
    ∧ download_emitent_info (some (some "x"))
        (fun _ : String => (Except.error "scan error" : Except String (List Yaml)))
      = Except.error (ParseError.yamlError "scan error") :=
  ⟨rfl, (download_emitent_info_spec
      (fun _ => Except.error "scan error")).2.2.1 "x" "scan error" rfl⟩

/-- C7 counterexample: with the identifier array `["A", "A"]` the index-keyed
map holds the records with sequence indices 0 and 1, both with external id
`"A"`.  The drain order of the Rust `HashMap` is unspecified; draining as
`[index 1, index 0]` — a permutation of the built records, hence an
admissible drain — re-keys to a map whose single record for `"A"` is the one
with the EARLIER sequence index 0, refuting "the record kept is the one with
the later (larger) sequence index". -/
theorem rekey_can_keep_earlier_index :
    (buildEmitents [Yaml.string "A", Yaml.string "A"]).map Prod.snd
      = [{ Emitent.default with internal_id := 0, id := "A" },
         { Emitent.default with internal_id := 1, id := "A" }]
    ∧ [{ Emitent.default with internal_id := 1, id := "A" },
       { Emitent.default with internal_id := 0, id := "A" }].Perm
        ((buildEmitents [Yaml.string "A", Yaml.string "A"]).map Prod.snd)
    ∧ rekeyById
        [{ Emitent.default with internal_id := 1, id := "A" },
         { Emitent.default with internal_id := 0, id := "A" }]
      = [("A", { Emitent.default with internal_id := 0, id := "A" })]
    ∧ ({ Emitent.default with internal_id := 0, id := "A" } : Emitent).internal_id
      = 0 := by
  refine ⟨by decide, by decide, by decide, rfl⟩

/-- C7 amended: re-keying by identifier keeps exactly one record per external
identifier string (the keys of the re-keyed map are pairwise distinct), and the
record kept for an identifier is the LAST record bearing it in the drain
sequence of the index-keyed map — an order Rust leaves unspecified, so the
sequence index of the surviving record is not determined (in particular it need
not be the larger one). -/
theorem rekey_keeps_last_in_drain_order (order : List Emitent) (k : String) :
    mapLookup (rekeyById order) k = lastById order k
    ∧ ((rekeyById order).map Prod.fst).Nodup :=
  ⟨rekeyById_lookup order k, rekeyById_keys_nodup order⟩

theorem yamlArrayOrEmpty_array (l : List Yaml) :
    yamlArrayOrEmpty (Yaml.array l) = l := rfl

theorem yamlHashOrEmpty_hash (l : List (Yaml × Yaml)) :
    yamlHashOrEmpty (Yaml.hash l) = l := rfl

theorem buildEmitents_nil : buildEmitents [] = [] := rfl

theorem rekeyById_nil : rekeyById [] = [] := rfl

theorem yamlArrayOrEmpty_eq_nil (y : Yaml) (h : y.isArr = false) :
    yamlArrayOrEmpty y = [] := by
  cases y
  case array l => simp [Yaml.isArr] at h
  all_goals rfl

theorem yamlHashOrEmpty_eq_nil (y : Yaml) (h : y.isHashValue = false) :
    yamlHashOrEmpty y = [] := by
  cases y
  case hash l => simp [Yaml.isHashValue] at h
  all_goals rfl

/-- C6: if one of the four embedded regions is absent — its extraction yields
zero parsed values — the assembly signals a failure value (the `assert!`
panic, modelled as `Except.error` carrying the panic message), and this
outcome is distinguishable from a document whose four regions are present
but hold empty collections, which assembles to the normal result `ok []`. -/
theorem absent_region_signals_failure :
    (∀ a b c d : List Yaml, (a = [] ∨ b = [] ∨ c = [] ∨ d = []) →
      ∃ msg, download_emitents_data a b c d = Except.error msg)
    ∧ download_emitents_data [Yaml.array []] [Yaml.array []] [Yaml.array []]
        [Yaml.hash []] = Except.ok [] := by
  constructor
  · intro a b c d h
    by_cases ha : a.length = 1
    case neg =>
      exact ⟨"assertion failed: emitent_id_sources.len() == 1",
        by simp [download_emitents_data, ha]⟩
    case pos =>
      by_cases hb : b.length = 1
      case neg =>
        exact ⟨"assertion failed: emitent_name_sources.len() == 1",
          by simp [download_emitents_data, ha, hb]⟩
      case pos =>
        by_cases hc : c.length = 1
        case neg =>
          exact ⟨"assertion failed: emitent_market_sources.len() == 1",
            by simp [download_emitents_data, ha, hb, hc]⟩
        case pos =>
          by_cases hd : d.length = 1
          case neg =>
            exact ⟨"assertion failed: emitent_uris_sources.len() == 1",
              by simp [download_emitents_data, ha, hb, hc, hd]⟩
          case pos =>
            exfalso
            rcases h with h | h | h | h
            · rw [h] at ha
              exact absurd ha (by simp)
            · rw [h] at hb
              exact absurd hb (by simp)
            · rw [h] at hc
              exact absurd hc (by simp)
            · rw [h] at hd
              exact absurd hd (by simp)
  · rfl

/-- Witness for C6: the identifier region absent (zero matches) while the
other regions are present makes assembly fail. -/
theorem absent_region_signals_failure_witness :
    (([] : List Yaml) = [] ∨ [Yaml.array []] = ([] : List Yaml)
      ∨ [Yaml.array []] = ([] : List Yaml) ∨ [Yaml.hash []] = ([] : List Yaml))
    ∧ ∃ msg, download_emitents_data [] [Yaml.array []] [Yaml.array []]
        [Yaml.hash []] = Except.error msg :=
  ⟨Or.inl rfl, absent_region_signals_failure.1 [] [Yaml.array []]
    [Yaml.array []] [Yaml.hash []] (Or.inl rfl)⟩

/-- C9: a region whose single extracted value does not have the expected
collection shape is treated as an empty collection and no error is
signalled: replacing the wrong-shaped value by an empty array (an empty
mapping for the URL region) leaves the assembly result unchanged; in
particular a non-array identifier value makes assembly return `ok []`,
indistinguishable from an actually empty identifier array. -/
theorem wrong_shape_treated_as_empty :
    (∀ y b c d, y.isArr = false →
      download_emitents_data [y] b c d
        = download_emitents_data [Yaml.array []] b c d)
    ∧ (∀ a y c d, y.isArr = false →
      download_emitents_data a [y] c d
        = download_emitents_data a [Yaml.array []] c d)
    ∧ (∀ a b y d, y.isArr = false →
      download_emitents_data a b [y] d
        = download_emitents_data a b [Yaml.array []] d)
    ∧ (∀ a b c y, y.isHashValue = false →
      download_emitents_data a b c [y]
        = download_emitents_data a b c [Yaml.hash []])
    ∧ (∀ y names markets uris, y.isArr = false →
      download_emitents_data [y] [Yaml.array names] [Yaml.array markets]
        [Yaml.hash uris] = Except.ok []) := by
  refine ⟨?_, ?_, ?_, ?_, ?_⟩
  · intro y b c d hy
    simp [download_emitents_data, yamlArrayOrEmpty_eq_nil y hy,
      yamlArrayOrEmpty_array]
  · intro a y c d hy
    simp [download_emitents_data, yamlArrayOrEmpty_eq_nil y hy,
      yamlArrayOrEmpty_array]
  · intro a b y d hy
    simp [download_emitents_data, yamlArrayOrEmpty_eq_nil y hy,
      yamlArrayOrEmpty_array]
  · intro a b c y hy
    simp [download_emitents_data, yamlHashOrEmpty_eq_nil y hy,
      yamlHashOrEmpty_hash]
  · intro y names markets uris hy
    simp [download_emitents_data, yamlArrayOrEmpty_eq_nil y hy,
      yamlArrayOrEmpty_array, yamlHashOrEmpty_hash, buildEmitents_nil,
      applyNames_nil, applyMarkets_nil, rekeyById_nil, applyUris_nil]

/-- Witness for C9: a bare integer in the identifier region yields `ok []`
and equals the empty-array outcome. -/
theorem wrong_shape_treated_as_empty_witness :
    (Yaml.integer 5).isArr = false
    ∧ download_emitents_data [Yaml.integer 5] [Yaml.array []] [Yaml.array []]
        [Yaml.hash []] = Except.ok [] :=
  ⟨rfl, wrong_shape_treated_as_empty.2.2.2.2 (Yaml.integer 5) [] [] [] rfl⟩

/- ------------------------------------------------------------------ -/
/- Normal forms of the assembled pipeline.                             -/
/- ------------------------------------------------------------------ -/

theorem download_emitents_data_wf (ids names markets : List Yaml)
    (uris : List (Yaml × Yaml)) :
    download_emitents_data [Yaml.array ids] [Yaml.array names]
        [Yaml.array markets] [Yaml.hash uris]
      = Except.ok ((applyUris
          (rekeyById ((applyMarkets (applyNames (buildEmitents ids) names)
            markets).map Prod.snd)) uris).map Prod.snd) := by
  simp [download_emitents_data, yamlArrayOrEmpty_array, yamlHashOrEmpty_hash]

theorem download_emitents_data_ok_shape (a b c d : List Yaml)
    (l : List Emitent)
    (h : download_emitents_data a b c d = Except.ok l) :
    l = (applyUris (rekeyById ((applyMarkets (applyNames
          (buildEmitents (yamlArrayOrEmpty (a.headD Yaml.null)))
          (yamlArrayOrEmpty (b.headD Yaml.null)))
          (yamlArrayOrEmpty (c.headD Yaml.null))).map Prod.snd))
        (yamlHashOrEmpty (d.headD Yaml.null))).map Prod.snd := by
  simp only [download_emitents_data] at h
  split at h
  · exact absurd h (by simp)
  · split at h
    · exact absurd h (by simp)
    · split at h
      · exact absurd h (by simp)
      · split at h
        · exact absurd h (by simp)
        · injection h with h2
          exact h2.symm

theorem stageB_ids (ids names markets : List Yaml) :
    ((applyMarkets (applyNames (buildEmitents ids) names) markets).map
        Prod.snd).map Emitent.id = ids.map yaml_to_string := by
  have h1 := idProj_of_entrySig_eq
    (entrySig_applyMarkets (applyNames (buildEmitents ids) names) markets)
  have h2 := idProj_of_entrySig_eq
    (entrySig_applyNames (buildEmitents ids) names)
  have h3 : (buildEmitents ids).map (fun p => p.2.id)
      = ids.map yaml_to_string := by
    rw [buildEmitents_eq, List.map_map]
    have h5 : ids.enum.map ((fun p : Nat × Emitent => p.2.id)
          ∘ (fun p : Nat × Yaml =>
            (p.1,
              { Emitent.default with
                  internal_id := p.1, id := yaml_to_string p.2 })))
        = ids.enum.map (yaml_to_string ∘ Prod.snd) := rfl
    rw [h5, ← List.map_map, List.enum_map_snd]
  rw [List.map_map]
  have h0 : (Emitent.id ∘ Prod.snd)
      = (fun p : Nat × Emitent => p.2.id) := rfl
  rw [h0, h1, h2, h3]

theorem stageB_length (ids names markets : List Yaml) :
    (applyMarkets (applyNames (buildEmitents ids) names) markets).length
      = ids.length := by
  have h1 := length_of_entrySig_eq
    (entrySig_applyMarkets (applyNames (buildEmitents ids) names) markets)
  have h2 := length_of_entrySig_eq
    (entrySig_applyNames (buildEmitents ids) names)
  rw [h1, h2, buildEmitents_eq, List.length_map, List.enum_length]

/-- C1: for a catalog document whose four embedded collections are each
present exactly once and well-formed (the three arrays and the mapping, with
the provider-guaranteed pairwise-distinct identifiers), assembly succeeds and
returns exactly one record per identifier-array element — the record ids are
exactly the coerced identifier strings, one per element — and no two
returned records share an external identifier. -/
theorem assemble_one_record_per_identifier (ids names markets : List Yaml)
    (uris : List (Yaml × Yaml))
    (hnodup : (ids.map yaml_to_string).Nodup) :
    ∃ l, download_emitents_data [Yaml.array ids] [Yaml.array names]
        [Yaml.array markets] [Yaml.hash uris] = Except.ok l
      ∧ l.length = ids.length
      ∧ l.map Emitent.id = ids.map yaml_to_string
      ∧ (l.map Emitent.id).Nodup := by
  rw [download_emitents_data_wf]
  have hVid : ((applyMarkets (applyNames (buildEmitents ids) names)
      markets).map Prod.snd).map Emitent.id = ids.map yaml_to_string :=
    stageB_ids ids names markets
  have hVnodup : (((applyMarkets (applyNames (buildEmitents ids) names)
      markets).map Prod.snd).map Emitent.id).Nodup := by
    rw [hVid]
    exact hnodup
  have hR := rekeyById_of_nodup _ hVnodup
  have hFsig := entrySig_applyUris
    (rekeyById ((applyMarkets (applyNames (buildEmitents ids) names)
      markets).map Prod.snd)) uris
  have hids : ((applyUris
      (rekeyById ((applyMarkets (applyNames (buildEmitents ids) names)
        markets).map Prod.snd)) uris).map Prod.snd).map Emitent.id
      = ids.map yaml_to_string := by
    rw [List.map_map]
    have h0 : (Emitent.id ∘ Prod.snd)
        = (fun p : String × Emitent => p.2.id) := rfl
    rw [h0, idProj_of_entrySig_eq hFsig, hR, List.map_map]
    have h4 : ((fun p : String × Emitent => p.2.id)
        ∘ (fun e : Emitent => (e.id, e))) = Emitent.id := rfl
    rw [h4]
    exact hVid
  have hlen : ((applyUris
      (rekeyById ((applyMarkets (applyNames (buildEmitents ids) names)
        markets).map Prod.snd)) uris).map Prod.snd).length = ids.length := by
    rw [List.length_map, length_of_entrySig_eq hFsig, hR, List.length_map,
      List.length_map, stageB_length]
  exact ⟨_, rfl, hlen, hids, by rw [hids]; exact hnodup⟩

/-- Witness for C1: the end-to-end catalog scenario with two distinct
identifiers. -/
theorem assemble_one_record_per_identifier_witness :
    (([Yaml.string "1", Yaml.string "2"].map yaml_to_string).Nodup)
    ∧ ∃ l, download_emitents_data
        [Yaml.array [Yaml.string "1", Yaml.string "2"]]
        [Yaml.array [Yaml.string "Alpha", Yaml.string "Beta"]]
        [Yaml.array [Yaml.string "1", Yaml.string "1"]]
        [Yaml.hash [(Yaml.string "1", Yaml.string "alpha"),
          (Yaml.string "2", Yaml.string "beta")]] = Except.ok l
      ∧ l.length = [Yaml.string "1", Yaml.string "2"].length
      ∧ l.map Emitent.id = [Yaml.string "1", Yaml.string "2"].map yaml_to_string
      ∧ (l.map Emitent.id).Nodup :=
  ⟨by decide, assemble_one_record_per_identifier
    [Yaml.string "1", Yaml.string "2"]
    [Yaml.string "Alpha", Yaml.string "Beta"]
    [Yaml.string "1", Yaml.string "1"]
    [(Yaml.string "1", Yaml.string "alpha"),
     (Yaml.string "2", Yaml.string "beta")] (by decide)⟩

/-- C3: orphan values are dropped during assembly.  Name-array (and
market-array) positions at or beyond the identifier-array length have no
record at their sequence index, and truncating those positions away leaves
the assembly result unchanged — the orphan values appear in no output
record.  A URL-map entry whose coerced key matches the external identifier
of no record can be removed without changing the result — it sets no field of
any output record. -/
theorem assemble_orphans_dropped :
    (∀ (ids names markets : List Yaml) (uris : List (Yaml × Yaml)),
      download_emitents_data [Yaml.array ids] [Yaml.array names]
          [Yaml.array markets] [Yaml.hash uris]
        = download_emitents_data [Yaml.array ids]
            [Yaml.array (names.take ids.length)] [Yaml.array markets]
            [Yaml.hash uris])
    ∧ (∀ (ids names markets : List Yaml) (uris : List (Yaml × Yaml)),
      download_emitents_data [Yaml.array ids] [Yaml.array names]
          [Yaml.array markets] [Yaml.hash uris]
        = download_emitents_data [Yaml.array ids] [Yaml.array names]
            [Yaml.array (markets.take ids.length)] [Yaml.hash uris])
    ∧ (∀ (ids names markets : List Yaml) (uris1 uris2 : List (Yaml × Yaml))
        (k v : Yaml), yaml_to_string k ∉ ids.map yaml_to_string →
      download_emitents_data [Yaml.array ids] [Yaml.array names]
          [Yaml.array markets] [Yaml.hash (uris1 ++ (k, v) :: uris2)]
        = download_emitents_data [Yaml.array ids] [Yaml.array names]
            [Yaml.array markets] [Yaml.hash (uris1 ++ uris2)]) := by
  refine ⟨?_, ?_, ?_⟩
  · intro ids names markets uris
    rw [download_emitents_data_wf, download_emitents_data_wf,
      applyNames_take (buildEmitents ids) names ids.length
        (buildEmitents_keys_lt ids)]
  · intro ids names markets uris
    rw [download_emitents_data_wf, download_emitents_data_wf]
    have hkeys : ∀ x ∈ (applyNames (buildEmitents ids) names).map Prod.fst,
        x < ids.length := by
      rw [keys_of_entrySig_eq (entrySig_applyNames (buildEmitents ids) names)]
      exact buildEmitents_keys_lt ids
    rw [applyMarkets_take _ markets ids.length hkeys]
  · intro ids names markets uris1 uris2 k v hk
    rw [download_emitents_data_wf, download_emitents_data_wf]
    have hne : ∀ p ∈ applyUris
        (rekeyById ((applyMarkets (applyNames (buildEmitents ids) names)
          markets).map Prod.snd)) uris1, p.1 ≠ yaml_to_string k := by
      intro p hp
      have hkeys := keys_of_entrySig_eq (entrySig_applyUris
        (rekeyById ((applyMarkets (applyNames (buildEmitents ids) names)
          markets).map Prod.snd)) uris1)
      have hpk : p.1 ∈ (rekeyById ((applyMarkets (applyNames
          (buildEmitents ids) names) markets).map Prod.snd)).map Prod.fst := by
        rw [← hkeys]
        exact List.mem_map_of_mem Prod.fst hp
      rcases List.mem_map.mp hpk with ⟨q, hq, hqe⟩
      have hmem : q.1 ∈ ids.map yaml_to_string := by
        rw [← stageB_ids ids names markets]
        exact rekeyById_keys_subset _ q hq
      intro hcontra
      rw [hqe, hcontra] at hmem
      exact hk hmem
    rw [applyUris_append, applyUris_append, applyUris_cons,
      mapUpdate_of_forall_ne _ hne]

/-- Witness for C3: a URL-map entry keyed `"zzz"` matches no identifier of
the one-element identifier array `["1"]` and its removal leaves the result
unchanged. -/
theorem assemble_orphans_dropped_witness :
    yaml_to_string (Yaml.string "zzz") ∉ [Yaml.string "1"].map yaml_to_string
    ∧ download_emitents_data [Yaml.array [Yaml.string "1"]] [Yaml.array []]
        [Yaml.array []]
        [Yaml.hash ([] ++ (Yaml.string "zzz", Yaml.string "u") :: [])]
      = download_emitents_data [Yaml.array [Yaml.string "1"]] [Yaml.array []]
        [Yaml.array []] [Yaml.hash ([] ++ [])] :=
  ⟨by decide, assemble_orphans_dropped.2.2 [Yaml.string "1"] [] [] [] []
    (Yaml.string "zzz") (Yaml.string "u") (by decide)⟩

theorem stage_records_invariant (ids nys mys : List Yaml)
    (uys : List (Yaml × Yaml)) :
    ∀ p ∈ applyUris (rekeyById ((applyMarkets (applyNames (buildEmitents ids)
        nys) mys).map Prod.snd)) uys,
      p.2.internal_id < ids.length
        ∧ p.2.id = yaml_to_string (ids.getD p.2.internal_id Yaml.badValue) := by
  have hA1 : ∀ p ∈ buildEmitents ids, p.2.internal_id < ids.length
      ∧ p.2.id = yaml_to_string (ids.getD p.2.internal_id Yaml.badValue) := by
    intro p hp
    rw [buildEmitents_eq] at hp
    rcases List.mem_map.mp hp with ⟨q, hq, hqe⟩
    have hlt : q.1 < ids.length := List.fst_lt_of_mem_enum hq
    have hget : ids[q.1]? = some q.2 := List.mem_enum_iff_getElem?.mp hq
    rw [← hqe]
    refine ⟨hlt, ?_⟩
    show yaml_to_string q.2 = yaml_to_string (ids.getD q.1 Yaml.badValue)
    rw [List.getD_eq_getElem?_getD, hget]
    rfl
  have hB1 : ∀ p ∈ applyNames (buildEmitents ids) nys,
      p.2.internal_id < ids.length
        ∧ p.2.id = yaml_to_string (ids.getD p.2.internal_id Yaml.badValue) :=
    foldl_mapUpdate_forall
      (fun e => e.internal_id < ids.length
        ∧ e.id = yaml_to_string (ids.getD e.internal_id Yaml.badValue))
      Prod.fst
      (fun p : Nat × Yaml => fun e => { e with name := yaml_to_string p.2 })
      (fun _ _ hp => hp) nys.enum (buildEmitents ids) hA1
  have hC1 : ∀ p ∈ applyMarkets (applyNames (buildEmitents ids) nys) mys,
      p.2.internal_id < ids.length
        ∧ p.2.id = yaml_to_string (ids.getD p.2.internal_id Yaml.badValue) :=
    foldl_mapUpdate_forall
      (fun e => e.internal_id < ids.length
        ∧ e.id = yaml_to_string (ids.getD e.internal_id Yaml.badValue))
      Prod.fst
      (fun p : Nat × Yaml => fun e => { e with market_id := yaml_to_string p.2 })
      (fun _ _ hp => hp) mys.enum (applyNames (buildEmitents ids) nys) hB1
  have hR1 : ∀ p ∈ rekeyById ((applyMarkets (applyNames (buildEmitents ids)
      nys) mys).map Prod.snd),
      p.2.internal_id < ids.length
        ∧ p.2.id = yaml_to_string (ids.getD p.2.internal_id Yaml.badValue) := by
    intro p hp
    have hv := rekeyById_values_mem _ p hp
    rcases List.mem_map.mp hv with ⟨q, hq, hqe⟩
    rw [← hqe]
    exact hC1 q hq
  exact foldl_mapUpdate_forall
    (fun e => e.internal_id < ids.length
      ∧ e.id = yaml_to_string (ids.getD e.internal_id Yaml.badValue))
    (fun p : Yaml × Yaml => yaml_to_string p.1)
    (fun p : Yaml × Yaml => fun e => { e with uri := yaml_to_string p.2 })
    (fun _ _ hp => hp) uys
    (rekeyById ((applyMarkets (applyNames (buildEmitents ids) nys)
      mys).map Prod.snd)) hR1

/-- C10: every record returned by the assembly has an internal sequence index
strictly below the identifier-array length, and its external identifier
equals the string coercion of the identifier-array element at that index —
the positional joins, the re-keying and the URL join never modify these two
fields after the record is created. -/
theorem record_index_and_id_invariant (ids b c d : List Yaml)
    (l : List Emitent)
    (h : download_emitents_data [Yaml.array ids] b c d = Except.ok l) :
    ∀ e ∈ l, e.internal_id < ids.length
      ∧ e.id = yaml_to_string (ids.getD e.internal_id Yaml.badValue) := by
  have hshape := download_emitents_data_ok_shape _ b c d l h
  intro e he
  rw [hshape] at he
  rcases List.mem_map.mp he with ⟨pf, hpf, hpfe⟩
  rw [← hpfe]
  exact stage_records_invariant ids
    (yamlArrayOrEmpty (b.headD Yaml.null))
    (yamlArrayOrEmpty (c.headD Yaml.null))
    (yamlHashOrEmpty (d.headD Yaml.null)) pf hpf

/-- Witness for C10: the one-identifier catalog `["7"]` yields the single
record with sequence index 0 and external identifier `"7"`, matching the
identifier-array entry at index 0. -/
theorem record_index_and_id_invariant_witness :
    download_emitents_data [Yaml.array [Yaml.string "7"]] [Yaml.array []]
        [Yaml.array []] [Yaml.hash []]
      = Except.ok [{ Emitent.default with internal_id := 0, id := "7" }]
    ∧ (({ Emitent.default with internal_id := 0, id := "7" }
          : Emitent).internal_id < [Yaml.string "7"].length
      ∧ ({ Emitent.default with internal_id := 0, id := "7" } : Emitent).id
        = yaml_to_string ([Yaml.string "7"].getD
            ({ Emitent.default with internal_id := 0, id := "7" }
              : Emitent).internal_id Yaml.badValue)) :=
  ⟨rfl,
   record_index_and_id_invariant [Yaml.string "7"] [Yaml.array []]
     [Yaml.array []] [Yaml.hash []]
     [{ Emitent.default with internal_id := 0, id := "7" }] rfl
     { Emitent.default with internal_id := 0, id := "7" } (by decide)⟩
